import Mathlib

/-!
Shallow embedding of the bulk-clear-formatting add-on
(src/bulk_clear_formatting.py and src/__init__.py).

Strings are modelled as `List Char`.  The text stripper
`stripFormatting(txt, preserve_br)` is the Python substitution
`re.sub("<(?!img|br).*?>", "", txt)` (resp. `"<(?!img).*?>"`): a single
left-to-right pass that, at each `<` whose lookahead is not exempt,
removes the non-greedy match up to the first following `>`, where `.`
matches any character except a newline.  The scanner is implemented with
a fuel argument equal to the input length so that it is structurally
recursive and kernel-computable; fuel-irrelevance is proved below.
-/

namespace BulkClearFormatting

/-- Lookahead `img` of the regex `<(?!img...)`: does the text right after
`<` begin with the three characters `img`? -/
def startsWithImg : List Char → Bool
  | c1 :: c2 :: c3 :: _ => c1 == 'i' && c2 == 'm' && c3 == 'g'
  | _ => false

/-- Lookahead `br` of the regex `<(?!img|br...)`: does the text right after
`<` begin with the two characters `br`? -/
def startsWithBr : List Char → Bool
  | c1 :: c2 :: _ => c1 == 'b' && c2 == 'r'
  | _ => false

/-- The negative lookahead of the substitution pattern: the tag starting at
this `<` is exempt from removal when it begins with `img`, or with `br`
when `preserve_br` is set. -/
def exempt (preserve_br : Bool) (cs : List Char) : Bool :=
  startsWithImg cs || (preserve_br && startsWithBr cs)

/-- The non-greedy `.*?>` part of the pattern, applied to the text after a
`<`: returns the remainder after the first `>` when one is reachable
without crossing a newline (Python `.` does not match `\n`), `none`
otherwise (in which case the pattern fails at that `<`). -/
def afterTag : List Char → Option (List Char)
  | [] => none
  | c :: cs => if c = '>' then some cs else if c = '\n' then none else afterTag cs

/-- One left-to-right pass of `re.sub`: at each position, try to match the
tag pattern; on a match drop it and continue after it, otherwise emit the
character and advance by one.  `fuel` bounds the recursion; any fuel at
least the length of the list gives the real result. -/
def scanStripF (p : Bool) : Nat → List Char → List Char
  | _, [] => []
  | fuel + 1, c :: cs =>
    if c = '<' ∧ exempt p cs = false then
      match afterTag cs with
      | some rest => scanStripF p fuel rest
      | none => c :: scanStripF p fuel cs
    else c :: scanStripF p fuel cs
  | 0, l => l

/-- The substitution with enough fuel: the meaning of
`re.sub("<(?!img[|br]).*?>", "", l)`. -/
def scanStrip (p : Bool) (l : List Char) : List Char :=
  scanStripF p l.length l

/-- `stripFormatting` of src/bulk_clear_formatting.py lines 32-53: removes
all html tags except those beginning `<img`, and except those beginning
`<br` when `preserve_br` is true. -/
def stripFormatting (txt : List Char) (preserve_br : Bool := false) : List Char :=
  scanStrip preserve_br txt

/-- The remainder returned by a successful non-greedy match is shorter than
the text after the `<`. -/
theorem afterTag_length : ∀ {cs rest : List Char}, afterTag cs = some rest →
    rest.length < cs.length := by
  intro cs
  induction cs with
  | nil => intro rest h; simp [afterTag] at h
  | cons c cs ih =>
    intro rest h
    simp only [afterTag] at h
    split at h
    · cases h; simp
    · split at h
      · cases h
      · exact Nat.lt_trans (ih h) (Nat.lt_succ_self _)

/-- Fuel irrelevance: any two fuels at least the length of the input give
the same scan result. -/
theorem scanStripF_irrel (p : Bool) :
    ∀ f g l, l.length ≤ f → l.length ≤ g → scanStripF p f l = scanStripF p g l := by
  intro f
  induction f with
  | zero =>
    intro g l hf _
    have : l = [] := List.eq_nil_of_length_eq_zero (Nat.le_zero.mp hf)
    subst this
    cases g <;> rfl
  | succ f ih =>
    intro g l hf hg
    cases l with
    | nil => cases g <;> rfl
    | cons c cs =>
      cases g with
      | zero => exact absurd hg (by simp)
      | succ g =>
        have hf' : cs.length ≤ f := Nat.le_of_succ_le_succ hf
        have hg' : cs.length ≤ g := Nat.le_of_succ_le_succ hg
        simp only [scanStripF]
        split
        · cases hr : afterTag cs with
          | some rest =>
            have hl := afterTag_length hr
            exact ih g rest (Nat.le_trans (Nat.le_of_lt hl) hf')
              (Nat.le_trans (Nat.le_of_lt hl) hg')
          | none =>
            exact congrArg (c :: ·) (ih g cs hf' hg')
        · exact congrArg (c :: ·) (ih g cs hf' hg')

theorem scanStrip_nil (p : Bool) : scanStrip p [] = [] := rfl

/-- One-step unfolding of the scan, in the shape of the recursion. -/
theorem scanStrip_cons (p : Bool) (c : Char) (cs : List Char) :
    scanStrip p (c :: cs) =
      if c = '<' ∧ exempt p cs = false then
        match afterTag cs with
        | some rest => scanStrip p rest
        | none => c :: scanStrip p cs
      else c :: scanStrip p cs := by
  show scanStripF p (cs.length + 1) (c :: cs) = _
  simp only [scanStripF]
  split
  · cases hr : afterTag cs with
    | some rest =>
      exact scanStripF_irrel p cs.length rest.length rest
        (Nat.le_of_lt (afterTag_length hr)) (Nat.le_refl _)
    | none => rfl
  · rfl

/-- The legacy scanner of src/__init__.py line 30,
`re.sub("<(?!img).*?>", "", txt)`: same single pass, with only the `img`
lookahead.  Embedded separately so that the two files' functions can be
compared. -/
def scanStripLegacyF : Nat → List Char → List Char
  | _, [] => []
  | fuel + 1, c :: cs =>
    if c = '<' ∧ startsWithImg cs = false then
      match afterTag cs with
      | some rest => scanStripLegacyF fuel rest
      | none => c :: scanStripLegacyF fuel cs
    else c :: scanStripLegacyF fuel cs
  | 0, l => l

/-- The one-argument `stripFormatting` of src/__init__.py lines 15-30. -/
def stripFormattingLegacy (txt : List Char) : List Char :=
  scanStripLegacyF txt.length txt

/-- Does `pat` occur at the head of `l`? -/
def leadsWith : List Char → List Char → Bool
  | [], _ => true
  | _ :: _, [] => false
  | a :: as, b :: bs => a == b && leadsWith as bs

/-- Does `pat` occur contiguously anywhere inside `l`?  Used to state that
an exact substring survives stripping. -/
def containsSeq (pat : List Char) : List Char → Bool
  | [] => leadsWith pat []
  | c :: t => leadsWith pat (c :: t) || containsSeq pat t

/-- Is some character `x` present in the list? -/
def hasChar (x : Char) : List Char → Bool
  | [] => false
  | c :: cs => c == x || hasChar x cs

/-- Does the string contain a `<` with a `>` somewhere after it, i.e. a
substring of the shape `<`...`>`? -/
def hasOpenClose : List Char → Bool
  | [] => false
  | c :: cs => (if c = '<' then hasChar '>' cs else false) || hasOpenClose cs

/-- Invariant of scanner output: at every `<` in the list, either the
lookahead is exempt or no `>` is reachable without a newline, so no
substitution can fire on it. -/
def clean (p : Bool) : List Char → Bool
  | [] => true
  | c :: cs =>
    (if c = '<' then exempt p cs || (afterTag cs).isNone else true) && clean p cs

/-! ## The bulk-edit workflow (`ClearFormattingDialog.on_confirm`)

A note is its ordered field values together with the field names of its
note type; the host collection is an association list from note id to
note.  `on_confirm` (src/bulk_clear_formatting.py lines 136-192) reads
the dialog state, asks for confirmation, and on an affirmative answer
iterates over the selected note ids, stripping either every field or the
single chosen field, counting changed fields, flushing each note, and
finally showing a tooltip built from the scope and the number of
selected notes. -/

/-- A note: ordered field values plus the field names of its note type. -/
structure Note where
  fields : List (List Char)
  fieldNames : List (List Char)
deriving DecidableEq

/-- The host collection, as an association list from note id to note. -/
abbrev Store := List (Nat × Note)

/-- `mw.col.get_note(nid)`: fetch a note by id. -/
def getNote (col : Store) (nid : Nat) : Note :=
  match col with
  | [] => ⟨[], []⟩
  | (k, n) :: rest => if k = nid then n else getNote rest nid

/-- `note.flush()`: persist the (possibly mutated) note back to the host
store. -/
def flushNote (col : Store) (nid : Nat) (note : Note) : Store :=
  col.map (fun e => if e.1 = nid then (nid, note) else e)

/-- The `clear_all` branch of the applying loop (lines 165-171): strip every
field, replacing a field and incrementing the counter only when the
stripped value differs. -/
def clearAllFields (preserve_br : Bool) : List (List Char) → List (List Char) × Nat
  | [] => ([], 0)
  | f :: fs =>
    let r := stripFormatting f preserve_br
    let next := clearAllFields preserve_br fs
    if r ≠ f then (r :: next.1, next.2 + 1) else (f :: next.1, next.2)

/-- Python `list.index` for a present element: index of the first
occurrence. -/
def idxOfName (fn : List Char) : List (List Char) → Nat
  | [] => 0
  | n :: ns => if n = fn then 0 else idxOfName fn ns + 1

/-- Processing of one note inside the applying loop (lines 165-180): in
`clear_all` mode strip every field; otherwise, when the note type has the
requested field name, strip that single field, replacing it and counting
only on change; when the name is absent the note is left untouched.
Returns the updated note and its contribution to the change counter. -/
def processNote (clear_all preserve_br : Bool) (field_name : List Char)
    (note : Note) : Note × Nat :=
  if clear_all then
    let r := clearAllFields preserve_br note.fields
    ({ note with fields := r.1 }, r.2)
  else if field_name ∈ note.fieldNames then
    let i := idxOfName field_name note.fieldNames
    let f := note.fields.getD i []
    let r := stripFormatting f preserve_br
    if r ≠ f then ({ note with fields := note.fields.set i r }, 1)
    else (note, 0)
  else (note, 0)

/-- The applying loop over the selected note ids (lines 161-182): fetch,
process, and unconditionally flush each note, accumulating the flushed
ids in order and the change counter.  Returns the final store, the list
of flushed note ids, and the counter. -/
def applyNotes (clear_all preserve_br : Bool) (field_name : List Char) :
    List Nat → Store → Store × List Nat × Nat
  | [], col => (col, [], 0)
  | nid :: rest, col =>
    let note := getNote col nid
    let pr := processNote clear_all preserve_br field_name note
    let next := applyNotes clear_all preserve_br field_name rest (flushNote col nid pr.1)
    (next.1, nid :: next.2.1, pr.2 + next.2.2)

/-- Observable outcome of one `on_confirm` invocation: the final store, the
note ids flushed, the change counter, and the reported tooltip, modelled
as scope-is-all, the optional field name, and the number the message
quotes (none when no tooltip is shown). -/
structure ConfirmOutcome where
  col : Store
  flushed : List Nat
  count : Nat
  report : Option (Bool × Option (List Char) × Nat)
deriving DecidableEq

/-- `ClearFormattingDialog.on_confirm` (lines 136-192): on a negative
answer to the confirmation prompt nothing happens; on an affirmative
answer the loop runs and a tooltip quoting the scope and
`len(self._nids)` is shown. -/
def on_confirm (confirmed clear_all preserve_br : Bool) (field_name : List Char)
    (nids : List Nat) (col : Store) : ConfirmOutcome :=
  if confirmed then
    let r := applyNotes clear_all preserve_br field_name nids col
    { col := r.1, flushed := r.2.1, count := r.2.2,
      report := some (clear_all, if clear_all then none else some field_name, nids.length) }
  else
    { col := col, flushed := [], count := 0, report := none }

/-! ## Helper lemmas about the scanner -/

/-- The scan leaves any `<`-free leading segment untouched. -/
theorem scanStrip_append_of_no_lt (p : Bool) :
    ∀ (a r : List Char), '<' ∉ a → scanStrip p (a ++ r) = a ++ scanStrip p r := by
  intro a
  induction a with
  | nil => intro r _; rfl
  | cons c a ih =>
    intro r ha
    have hc : c ≠ '<' := fun h => ha (h ▸ List.mem_cons_self c a)
    have ha' : '<' ∉ a := fun h => ha (List.mem_cons_of_mem c h)
    rw [List.cons_append, scanStrip_cons, if_neg (fun h => hc h.1), ih r ha',
      List.cons_append]

/-- A body free of `>` and of newlines makes the non-greedy match end
exactly at the closing `>`. -/
theorem afterTag_append :
    ∀ (body c : List Char), '>' ∉ body → '\n' ∉ body →
      afterTag (body ++ '>' :: c) = some c := by
  intro body
  induction body with
  | nil => intro c _ _; simp [afterTag]
  | cons b body ih =>
    intro c hgt hnl
    have hb1 : b ≠ '>' := fun h => hgt (h ▸ List.mem_cons_self b body)
    have hb2 : b ≠ '\n' := fun h => hnl (h ▸ List.mem_cons_self b body)
    simp only [List.cons_append, afterTag, if_neg hb1, if_neg hb2]
    exact ih c (fun h => hgt (List.mem_cons_of_mem b h))
      (fun h => hnl (List.mem_cons_of_mem b h))

/-- Without any `>` after a `<`, the pattern cannot close, so it fails. -/
theorem afterTag_eq_none_of_no_gt :
    ∀ cs : List Char, hasChar '>' cs = false → afterTag cs = none := by
  intro cs
  induction cs with
  | nil => intro _; rfl
  | cons c cs ih =>
    intro h
    simp only [hasChar, Bool.or_eq_false_iff, beq_eq_false_iff_ne, ne_eq] at h
    simp only [afterTag, if_neg h.1]
    split
    · rfl
    · exact ih h.2

/-- A list is a lead of itself followed by anything. -/
theorem leadsWith_append_self : ∀ (pat b : List Char), leadsWith pat (pat ++ b) = true := by
  intro pat
  induction pat with
  | nil => intro b; rfl
  | cons c pat ih =>
    intro b
    simp only [List.cons_append, leadsWith, beq_self_eq_true, Bool.true_and]
    exact ih b

/-- An explicitly embedded pattern occurs in the surrounding list. -/
theorem containsSeq_append_self :
    ∀ (a pat b : List Char), containsSeq pat (a ++ pat ++ b) = true := by
  intro a pat b
  induction a with
  | nil =>
    cases pat with
    | nil =>
      cases b with
      | nil => rfl
      | cons c t => rfl
    | cons p ps =>
      show (leadsWith (p :: ps) (p :: (ps ++ b)) || containsSeq (p :: ps) (ps ++ b)) = true
      have h := leadsWith_append_self (p :: ps) b
      rw [List.cons_append] at h
      rw [h, Bool.true_or]
  | cons c a ih =>
    show (leadsWith pat (c :: (a ++ pat ++ b)) || containsSeq pat (a ++ pat ++ b)) = true
    rw [ih, Bool.or_true]

/-- At a character other than `<` the scan just emits it. -/
theorem scanStrip_cons_of_ne (p : Bool) (c : Char) (cs : List Char) (h : c ≠ '<') :
    scanStrip p (c :: cs) = c :: scanStrip p cs := by
  rw [scanStrip_cons, if_neg (fun hh => h hh.1)]

/-- An exempt lookahead survives the scan: the `img` (or `br`) characters
after the `<` are emitted verbatim, so the lookahead still fires on the
output. -/
theorem exempt_scan (p : Bool) (cs : List Char) (h : exempt p cs = true) :
    exempt p (scanStrip p cs) = true := by
  unfold exempt at h ⊢
  rw [Bool.or_eq_true] at h
  rcases h with himg | hbr
  · rcases cs with _ | ⟨c1, _ | ⟨c2, _ | ⟨c3, t⟩⟩⟩
    · simp [startsWithImg] at himg
    · simp [startsWithImg] at himg
    · simp [startsWithImg] at himg
    · have h3 : c1 = 'i' ∧ c2 = 'm' ∧ c3 = 'g' := by
        simpa [startsWithImg, Bool.and_eq_true, beq_iff_eq, and_assoc] using himg
      obtain ⟨h1, h2, h3⟩ := h3
      subst h1; subst h2; subst h3
      rw [scanStrip_cons_of_ne p 'i' _ (by decide),
        scanStrip_cons_of_ne p 'm' _ (by decide),
        scanStrip_cons_of_ne p 'g' _ (by decide)]
      simp [startsWithImg]
  · rw [Bool.and_eq_true] at hbr
    obtain ⟨hp, hbr⟩ := hbr
    rcases cs with _ | ⟨c1, _ | ⟨c2, t⟩⟩
    · simp [startsWithBr] at hbr
    · simp [startsWithBr] at hbr
    · have h2 : c1 = 'b' ∧ c2 = 'r' := by
        simpa [startsWithBr, Bool.and_eq_true, beq_iff_eq] using hbr
      obtain ⟨h1, h2⟩ := h2
      subst h1; subst h2
      rw [scanStrip_cons_of_ne p 'b' _ (by decide),
        scanStrip_cons_of_ne p 'r' _ (by decide)]
      simp [startsWithBr, hp]

/-- If the pattern cannot close after a `<` (a newline or the end of the
string comes before any `>`), it still cannot close on the scanned
output: newlines are never removed, and every surviving `>` originally
sat after the blocking newline. -/
theorem afterTag_none_scan (p : Bool) :
    ∀ (n : Nat) (cs : List Char), cs.length ≤ n → afterTag cs = none →
      afterTag (scanStrip p cs) = none := by
  intro n
  induction n with
  | zero =>
    intro cs hl _
    have : cs = [] := List.eq_nil_of_length_eq_zero (Nat.le_zero.mp hl)
    subst this; rfl
  | succ n ih =>
    intro cs hl h
    cases cs with
    | nil => rfl
    | cons c cs =>
      have hl' : cs.length ≤ n := Nat.le_of_succ_le_succ hl
      by_cases hgt : c = '>'
      · subst hgt; simp [afterTag] at h
      · by_cases hnl : c = '\n'
        · subst hnl
          rw [scanStrip_cons_of_ne p '\n' cs (by decide)]
          simp [afterTag]
        · have h' : afterTag cs = none := by
            simpa [afterTag, if_neg hgt, if_neg hnl] using h
          rw [scanStrip_cons]
          split
          · rw [h']
            simp only [afterTag, if_neg hgt, if_neg hnl]
            exact ih cs hl' h'
          · simp only [afterTag, if_neg hgt, if_neg hnl]
            exact ih cs hl' h'

/-- A clean list is a fixed point of the scan. -/
theorem clean_fix (p : Bool) :
    ∀ (n : Nat) (l : List Char), l.length ≤ n → clean p l = true →
      scanStrip p l = l := by
  intro n
  induction n with
  | zero =>
    intro l hl _
    have : l = [] := List.eq_nil_of_length_eq_zero (Nat.le_zero.mp hl)
    subst this; rfl
  | succ n ih =>
    intro l hl hc
    cases l with
    | nil => rfl
    | cons c cs =>
      have hl' : cs.length ≤ n := Nat.le_of_succ_le_succ hl
      have hc2 : ((if c = '<' then exempt p cs || (afterTag cs).isNone else true) &&
          clean p cs) = true := hc
      rw [Bool.and_eq_true] at hc2
      obtain ⟨h1, h2⟩ := hc2
      rw [scanStrip_cons]
      split
      · rename_i hcond
        obtain ⟨hlt, hex⟩ := hcond
        rw [if_pos hlt, Bool.or_eq_true] at h1
        have hnone : afterTag cs = none := by
          rcases h1 with hx | hx
          · rw [hex] at hx; cases hx
          · exact Option.isNone_iff_eq_none.mp hx
        rw [hnone, ih cs hl' h2]
      · rw [ih cs hl' h2]

/-- The scan always produces a clean list: no substitution can fire on its
own output. -/
theorem scan_clean (p : Bool) :
    ∀ (n : Nat) (l : List Char), l.length ≤ n →
      clean p (scanStrip p l) = true := by
  intro n
  induction n with
  | zero =>
    intro l hl
    have : l = [] := List.eq_nil_of_length_eq_zero (Nat.le_zero.mp hl)
    subst this; rfl
  | succ n ih =>
    intro l hl
    cases l with
    | nil => rfl
    | cons c cs =>
      have hl' : cs.length ≤ n := Nat.le_of_succ_le_succ hl
      rw [scanStrip_cons]
      by_cases hcond : c = '<' ∧ exempt p cs = false
      · rw [if_pos hcond]
        cases hr : afterTag cs with
        | some rest =>
          exact ih rest (Nat.le_trans (Nat.le_of_lt (afterTag_length hr)) hl')
        | none =>
          show ((if c = '<' then exempt p (scanStrip p cs) ||
              (afterTag (scanStrip p cs)).isNone else true) &&
              clean p (scanStrip p cs)) = true
          rw [if_pos hcond.1, afterTag_none_scan p n cs hl' hr]
          simp [ih cs hl']
      · rw [if_neg hcond]
        show ((if c = '<' then exempt p (scanStrip p cs) ||
            (afterTag (scanStrip p cs)).isNone else true) &&
            clean p (scanStrip p cs)) = true
        by_cases hlt : c = '<'
        · have hex : exempt p cs = true := by
            cases hx : exempt p cs
            · exact absurd ⟨hlt, hx⟩ hcond
            · rfl
          rw [if_pos hlt, exempt_scan p cs hex, Bool.true_or]
          simpa using ih cs hl'
        · rw [if_neg hlt]
          simpa using ih cs hl'

/-! ## Helper lemmas about the workflow -/

/-- The applying loop flushes exactly the selected note ids, in order. -/
theorem applyNotes_flushed (clear_all preserve_br : Bool) (field_name : List Char) :
    ∀ (nids : List Nat) (col : Store),
      (applyNotes clear_all preserve_br field_name nids col).2.1 = nids := by
  intro nids
  induction nids with
  | nil => intro col; rfl
  | cons nid rest ih =>
    intro col
    simp only [applyNotes]
    rw [ih]

/-- The legacy scanner is the two-argument scanner with the `br`
preservation switched off, fuel step by fuel step. -/
theorem scanStripLegacyF_eq :
    ∀ (fuel : Nat) (l : List Char),
      scanStripLegacyF fuel l = scanStripF false fuel l := by
  intro fuel
  induction fuel with
  | zero => intro l; cases l <;> rfl
  | succ fuel ih =>
    intro l
    cases l with
    | nil => rfl
    | cons c cs =>
      have hex : exempt false cs = startsWithImg cs := by
        simp [exempt]
      simp only [scanStripLegacyF, scanStripF, hex]
      split
      · cases afterTag cs with
        | some rest => exact ih rest
        | none => exact congrArg (c :: ·) (ih cs)
      · exact congrArg (c :: ·) (ih cs)

/-- Bounded-induction core of claim C7: a string with no `<`...`>` shaped
substring is left unchanged by the scan. -/
theorem scan_id_of_no_open_close (p : Bool) :
    ∀ (n : Nat) (s : List Char), s.length ≤ n → hasOpenClose s = false →
      scanStrip p s = s := by
  intro n
  induction n with
  | zero =>
    intro s hl _
    have : s = [] := List.eq_nil_of_length_eq_zero (Nat.le_zero.mp hl)
    subst this; rfl
  | succ n ih =>
    intro s hl h
    cases s with
    | nil => rfl
    | cons c cs =>
      have hl' : cs.length ≤ n := Nat.le_of_succ_le_succ hl
      have h2 : ((if c = '<' then hasChar '>' cs else false) || hasOpenClose cs)
          = false := h
      rw [Bool.or_eq_false_iff] at h2
      rw [scanStrip_cons]
      split
      · rename_i hcond
        have hnone : afterTag cs = none := by
          apply afterTag_eq_none_of_no_gt
          have := h2.1
          rwa [if_pos hcond.1] at this
        rw [hnone, ih cs hl' h2.2]
      · rw [ih cs hl' h2.2]

/-! ## The claims -/

/-- Claim C1, counterexample: with an affirmative confirmation, a selected
note none of whose fields changes under stripping (its only field `A`
holds no tag) is nonetheless written back: the final store is unchanged
and the change counter is zero, yet note 7 is flushed.  This contradicts
the claim that a note all of whose fields are unchanged is never written
back. -/
theorem c1_counterexample :
    (on_confirm true true false [] [7] [(7, ⟨[['A']], [['F']]⟩)]).col
        = [(7, ⟨[['A']], [['F']]⟩)] ∧
    (on_confirm true true false [] [7] [(7, ⟨[['A']], [['F']]⟩)]).count = 0 ∧
    (on_confirm true true false [] [7] [(7, ⟨[['A']], [['F']]⟩)]).flushed = [7] := by
  decide

/-- Claim C1, amended: in the applying phase every note of the selection
set is written back unconditionally, whether or not any of its fields
changed; only the in-memory replacement of a field value is conditional
on the field having changed. -/
theorem c1_every_selected_note_flushed (clear_all preserve_br : Bool)
    (field_name : List Char) (nids : List Nat) (col : Store) :
    (on_confirm true clear_all preserve_br field_name nids col).flushed = nids := by
  show (applyNotes clear_all preserve_br field_name nids col).2.1 = nids
  exact applyNotes_flushed clear_all preserve_br field_name nids col

/-- Claim C2: if the user does not give an affirmative response at the
confirmation step, no note field is mutated and no note is persisted:
the store is returned bit-identical, nothing is flushed, and no report
is shown. -/
theorem c2_cancelled_confirmation_no_mutation (clear_all preserve_br : Bool)
    (field_name : List Char) (nids : List Nat) (col : Store) :
    on_confirm false clear_all preserve_br field_name nids col =
      { col := col, flushed := [], count := 0, report := none } := rfl

/-- Claim C3, counterexample: the input `<<img src="x">` contains the exact
substring `<img src="x">`, but stripping it (with the flag off) removes
everything — the stray `<` before the image tag starts a match that
swallows the whole tag — so the substring does not survive.  This
refutes the claim for every input string containing `<img src="x">`. -/
theorem c3_counterexample :
    containsSeq "<img src=\"x\">".data "<<img src=\"x\">".data = true ∧
    containsSeq "<img src=\"x\">".data
      (stripFormatting "<<img src=\"x\">".data false) = false := by
  decide

/-- Claim C3, amended: for every input of the form `a ++ <img src="x"> ++ b`
in which no `<` occurs in `a`, the exact substring `<img src="x">`
survives stripping, for both values of the preserve-line-breaks flag.
(The restriction on `a` is forced by the counterexample: an earlier
unclosed `<` can consume the image tag.) -/
theorem c3_img_survives (p : Bool) (a b : List Char) (ha : '<' ∉ a) :
    containsSeq "<img src=\"x\">".data
      (stripFormatting (a ++ "<img src=\"x\">".data ++ b) p) = true := by
  have himgb : scanStrip p ("<img src=\"x\">".data ++ b) =
      "<img src=\"x\">".data ++ scanStrip p b := by
    show scanStrip p ('<' :: ("img src=\"x\">".data ++ b)) = _
    rw [scanStrip_cons, if_neg (fun hh => by simp [exempt, startsWithImg] at hh)]
    rw [scanStrip_append_of_no_lt p ("img src=\"x\">".data) b (by decide)]
    rfl
  have hx : stripFormatting (a ++ "<img src=\"x\">".data ++ b) p =
      a ++ "<img src=\"x\">".data ++ scanStrip p b := by
    show scanStrip p (a ++ "<img src=\"x\">".data ++ b) = _
    rw [List.append_assoc, scanStrip_append_of_no_lt p a _ ha, himgb,
      ← List.append_assoc]
  rw [hx]
  exact containsSeq_append_self a _ (scanStrip p b)

/-- Claim C3, witness: the amended theorem applied at a concrete input. -/
theorem c3_witness :
    ('<' ∉ "hi".data) ∧
    containsSeq "<img src=\"x\">".data
      (stripFormatting ("hi".data ++ "<img src=\"x\">".data ++ "<b>z".data) false)
      = true :=
  ⟨by decide, c3_img_survives false "hi".data "<b>z".data (by decide)⟩

/-- Claim C4, counterexample: the tag-shaped substring `<a\nb>` — whose
body contains a newline — is not removed by stripping: Python `.` does
not match a newline, so the pattern fails at the `<` and the input comes
back unchanged, contradicting the claim that bodies may contain any
characters including newlines. -/
theorem c4_counterexample :
    hasOpenClose "<a\nb>".data = true ∧
    stripFormatting "<a\nb>".data false = "<a\nb>".data := by
  decide

/-- Claim C4, amended: strip removes every substring from `<` to the next
`>` (non-greedy, left-to-right in one pass), where the characters
between the angle brackets may be any characters EXCEPT newlines, and
the lookahead at the `<` is not an img (or, under the flag, br)
exemption; scanning then continues after the removed tag.  A tag whose
body contains a newline is not removed. -/
theorem c4_tag_removed (p : Bool) (a body c : List Char)
    (ha : '<' ∉ a) (hgt : '>' ∉ body) (hnl : '\n' ∉ body)
    (hex : exempt p (body ++ '>' :: c) = false) :
    stripFormatting (a ++ '<' :: (body ++ '>' :: c)) p = a ++ stripFormatting c p := by
  show scanStrip p (a ++ '<' :: (body ++ '>' :: c)) = a ++ scanStrip p c
  rw [scanStrip_append_of_no_lt p a _ ha]
  congr 1
  rw [scanStrip_cons, if_pos ⟨rfl, hex⟩, afterTag_append body c hgt hnl]

/-- Claim C4, witness: the amended theorem applied at a concrete input. -/
theorem c4_witness :
    ('<' ∉ "ab".data) ∧ ('>' ∉ "i".data) ∧ ('\n' ∉ "i".data) ∧
    exempt false ("i".data ++ '>' :: "cd".data) = false ∧
    stripFormatting ("ab".data ++ '<' :: ("i".data ++ '>' :: "cd".data)) false =
      "ab".data ++ stripFormatting "cd".data false :=
  ⟨by decide, by decide, by decide, by decide,
    c4_tag_removed false "ab".data "i".data "cd".data
      (by decide) (by decide) (by decide) (by decide)⟩

/-- Claim C5: `<br>` tags are removed when the preserve-line-breaks flag is
false and preserved when it is true, on the spec's own example. -/
theorem c5_br_flag_behavior :
    stripFormatting "line1<br>line2".data false = "line1line2".data ∧
    stripFormatting "line1<br>line2".data true = "line1<br>line2".data := by
  decide

/-- Claim C6: strip is idempotent — stripping an already-stripped string,
with the same flag, changes nothing. -/
theorem c6_idempotent (s : List Char) (p : Bool) :
    stripFormatting (stripFormatting s p) p = stripFormatting s p :=
  clean_fix p (scanStrip p s).length (scanStrip p s) (Nat.le_refl _)
    (scan_clean p s.length s (Nat.le_refl _))

/-- Claim C7: a string containing no substring of the shape `<`...`>`
(no `<` with a `>` anywhere after it) is returned unchanged, for both
flag values; in particular the empty string maps to the empty string. -/
theorem c7_no_tag_unchanged (s : List Char) (p : Bool)
    (h : hasOpenClose s = false) :
    stripFormatting s p = s :=
  scan_id_of_no_open_close p s.length s (Nat.le_refl _) h

/-- Claim C7, witness: the theorem applied at a concrete tag-free input
(and, via the same application shape, the empty string is covered by the
universal statement). -/
theorem c7_witness :
    hasOpenClose "a > b < c".data = false ∧
    stripFormatting "a > b < c".data true = "a > b < c".data :=
  ⟨by decide, c7_no_tag_unchanged "a > b < c".data true (by decide)⟩

/-- Claim C8, counterexample: with one selected note whose single plain
field changes nothing, the change counter is 0 and no note is touched,
yet the reported summary quotes the number 1 — the size of the
selection — so the summary does not state the total notes touched nor
the total fields changed. -/
theorem c8_counterexample :
    (on_confirm true true false [] [3] [(3, ⟨[['B']], [['F']]⟩)]).count = 0 ∧
    (on_confirm true true false [] [3] [(3, ⟨[['B']], [['F']]⟩)]).col
        = [(3, ⟨[['B']], [['F']]⟩)] ∧
    (on_confirm true true false [] [3] [(3, ⟨[['B']], [['F']]⟩)]).report
        = some (true, none, 1) := by
  decide

/-- Claim C8, amended: after the applying phase the reporting step emits a
summary stating the scope description together with the number of
SELECTED notes (the length of the selection set), not the number of
notes touched or fields changed; the change counter is computed but
never reported. -/
theorem c8_report_quotes_selection_size (clear_all preserve_br : Bool)
    (field_name : List Char) (nids : List Nat) (col : Store) :
    (on_confirm true clear_all preserve_br field_name nids col).report =
      some (clear_all, if clear_all then none else some field_name, nids.length) :=
  rfl

/-- Claim C9: in single-field scope, a selected note whose note type's
field-name list does not contain the requested field name is silently
skipped: its fields are left unchanged, it contributes nothing to the
change counter, and the applying loop continues with the remaining
notes (the skipped note is still flushed, unchanged, like every other
note). -/
theorem c9_missing_field_note_skipped (p : Bool) (fn : List Char) (nid : Nat)
    (rest : List Nat) (col : Store)
    (h : fn ∉ (getNote col nid).fieldNames) :
    processNote false p fn (getNote col nid) = (getNote col nid, 0) ∧
    applyNotes false p fn (nid :: rest) col =
      ((applyNotes false p fn rest (flushNote col nid (getNote col nid))).1,
        nid :: (applyNotes false p fn rest (flushNote col nid (getNote col nid))).2.1,
        (applyNotes false p fn rest (flushNote col nid (getNote col nid))).2.2) := by
  have hp : processNote false p fn (getNote col nid) = (getNote col nid, 0) := by
    simp [processNote, h]
  refine ⟨hp, ?_⟩
  simp [applyNotes, hp]

/-- Claim C9, witness: the theorem applied at a concrete store holding one
note whose note type lacks the requested field name `G`. -/
theorem c9_witness :
    (['G'] ∉ (getNote [(1, ⟨[['a']], [['F']]⟩)] 1).fieldNames) ∧
    (processNote false false ['G'] (getNote [(1, ⟨[['a']], [['F']]⟩)] 1)
        = (getNote [(1, ⟨[['a']], [['F']]⟩)] 1, 0) ∧
      applyNotes false false ['G'] [1] [(1, ⟨[['a']], [['F']]⟩)] =
        ((applyNotes false false ['G'] []
            (flushNote [(1, ⟨[['a']], [['F']]⟩)] 1
              (getNote [(1, ⟨[['a']], [['F']]⟩)] 1))).1,
          1 :: (applyNotes false false ['G'] []
            (flushNote [(1, ⟨[['a']], [['F']]⟩)] 1
              (getNote [(1, ⟨[['a']], [['F']]⟩)] 1))).2.1,
          (applyNotes false false ['G'] []
            (flushNote [(1, ⟨[['a']], [['F']]⟩)] 1
              (getNote [(1, ⟨[['a']], [['F']]⟩)] 1))).2.2)) :=
  ⟨by decide, c9_missing_field_note_skipped false ['G'] 1 [] _ (by decide)⟩

/-- Claim C10: the legacy one-argument `stripFormatting` of src/__init__.py
computes the same result as the two-argument `stripFormatting` of
src/bulk_clear_formatting.py with `preserve_br = false`: both apply the
substitution removing `<(?!img).*?>` matches. -/
theorem c10_legacy_equals_two_arg (txt : List Char) :
    stripFormattingLegacy txt = stripFormatting txt false :=
  scanStripLegacyF_eq txt.length txt

end BulkClearFormatting
